import Mathlib

/-!
Shallow embedding of the release-artifact synthesis engine of
`longhorn-release` (Rust): issue aggregation (`src/cmds/release.rs`,
`ReleaseArgs::search_issues`), release-note composition
(`ReleaseArgs::create_release`), the issue filter hook (`ReleaseArgs::run`),
note-file reading (`read_note_file`), previous-tag resolution
(`src/git.rs`, `GitCli::previous_tag`), commit scanning and changelog
rendering (`src/cmds/changelog.rs`, `generate_repo_report`) and the
multi-repository fan-out (`ChangelogArgs::run`).

Machine integers (`u64` issue numbers) are modelled as `Nat`; timestamps
(`DateTime<Utc>`) as `Int`; fallible operations return `Except` or
`Option`, and a Rust `panic!` / `unwrap` failure is modelled as a `none` /
dedicated constructor.  External collaborators (the GitHub tracker, the
filesystem, the hook process) are modelled as explicit inputs: a paginated
search is given the finite sequence of pages the tracker would serve (the
tracker serves empty pages afterwards), the filesystem is a structure of
query functions, and the hook is its textual output.
-/

namespace LonghornRelease

/-! ### Character-list string helpers

Executable models of the Rust string primitives used by the source
(`str::lines`, `str::starts_with`, `str::contains`, `str::splitn`-style
splitting, `u64::from_str`).  They operate on `String.data` so that every
definition reduces inside the kernel.
-/

/-- Model of Rust `a.starts_with(b)` : `listStartsWith b.data a.data`. -/
def listStartsWith : List Char → List Char → Bool
  | [], _ => true
  | _ :: _, [] => false
  | a :: as, b :: bs => a == b && listStartsWith as bs

/-- Rust `haystack.starts_with(needle)` for strings. -/
def strStartsWith (haystack needle : String) : Bool :=
  listStartsWith needle.data haystack.data

/-- Helper for `strContainsSubstr`: does `pat` occur as an infix? -/
def listHasInfix (pat : List Char) : List Char → Bool
  | [] => pat.isEmpty
  | x :: rest => listStartsWith pat (x :: rest) || listHasInfix pat rest

/-- Rust `haystack.contains(pat)` (substring search), as used on issue URLs. -/
def strContainsSubstr (haystack pat : String) : Bool :=
  listHasInfix pat.data haystack.data

/-- Split a character list at every occurrence of the separator character. -/
def splitOnCharAux (c : Char) : List Char → List Char → List (List Char)
  | [], acc => [acc.reverse]
  | x :: xs, acc =>
    if x == c then acc.reverse :: splitOnCharAux c xs []
    else splitOnCharAux c xs (x :: acc)

/-- Rust `str::split(sep)` for a one-character separator (collected). -/
def strSplitOnChar (s : String) (c : Char) : List String :=
  (splitOnCharAux c s.data []).map String.mk

/-- Strip one trailing carriage return, as Rust `str::lines` does per line. -/
def stripTrailingCR (l : List Char) : List Char :=
  match l.getLast? with
  | some r => if r == '\r' then l.dropLast else l
  | none => l

/-- Model of Rust `str::lines().collect()`: split at every newline, drop the
final empty piece produced by a trailing newline, strip a trailing carriage
return from each line.  The empty string yields no lines. -/
def rustLines (s : String) : List String :=
  if s.data.isEmpty then []
  else
    let parts := splitOnCharAux '\n' s.data []
    let parts := if parts.getLast? == some [] then parts.dropLast else parts
    parts.map (fun l => String.mk (stripTrailingCR l))

/-- Model of Rust `str::lines().next()`: the first line of a string, `none`
for the empty string (the case whose `unwrap` panics in the source). -/
def rustLinesNext (s : String) : Option String :=
  match rustLines s with
  | [] => none
  | l :: _ => some l

/-- Numeric value of a list of decimal digit characters. -/
def digitsVal (l : List Char) : Nat :=
  l.foldl (fun acc c => acc * 10 + (c.toNat - 48)) 0

/-- Model of Rust `str::parse::<u64>()`: optional leading `+`, at least one
digit, only digits, value below `2 ^ 64`. -/
def parseU64 (s : String) : Option Nat :=
  let l := if s.data.head? == some '+' then s.data.tail else s.data
  if l.isEmpty then none
  else if !(l.all Char.isDigit) then none
  else if digitsVal l < 2 ^ 64 then some (digitsVal l) else none

/-! ### Issue-tracker data model

The fields of `octocrab::models::issues::Issue` (and the milestone list
entries) that `release.rs` reads.  `closed_at` timestamps and the recency
cutoff are `Int` instants. -/

/-- Label attached to an issue; the source only reads `name`. -/
structure IssueLabel where
  name : String
deriving DecidableEq, Repr

/-- Issue assignee; the source only reads `login`. -/
structure Account where
  login : String
deriving DecidableEq, Repr

/-- The slice of a GitHub issue consumed by `search_issues` and
`create_release`. -/
structure Issue where
  number : Nat
  title : String
  html_url : String
  labels : List IssueLabel
  assignees : List Account
  closed_at : Option Int
deriving DecidableEq, Repr

/-- The slice of a GitHub milestone consumed by `search_issues`. -/
structure Milestone where
  number : Nat
  title : String
deriving DecidableEq, Repr

/-! ### Issue aggregation (`ReleaseArgs::search_issues`) -/

/-- Client-side post-filter applied to every result page
(`release.rs:214-225`): drop an issue closed before the `since` cutoff,
and drop an issue carrying an excluded label. -/
def retainIssue (since_date : Int) (exclude_labels : List String) (issue : Issue) : Bool :=
  (match issue.closed_at with
   | some closed_at => decide (since_date ≤ closed_at)
   | none => true)
  && !(issue.labels.any (fun label => exclude_labels.contains label.name))

/-- One paginated search pass (`release.rs:195-237` inner `loop`): pages are
fetched in order; each page is post-filtered with `retainIssue`; the pass
stops at the first page whose *filtered* result is empty.  The input list
holds the pages the tracker serves; once it is exhausted the tracker serves
empty pages. -/
def searchPass (since_date : Int) (exclude_labels : List String) :
    List (List Issue) → List Issue
  | [] => []
  | page :: rest =>
    let results := page.filter (retainIssue since_date exclude_labels)
    if results.isEmpty then []
    else results ++ searchPass since_date exclude_labels rest

/-- `HashSet::insert` on the id accumulator, modelled as an order-preserving
duplicate-free list. -/
def insertId (ids : List Nat) (n : Nat) : List Nat :=
  if ids.contains n then ids else ids ++ [n]

/-- Accumulate the ids of a list of retained issues (`release.rs:231-233`). -/
def collectIds (ids : List Nat) (issues : List Issue) : List Nat :=
  issues.foldl (fun acc issue => insertId acc issue.number) ids

/-- Embedding of `ReleaseArgs::search_issues` (`release.rs:160-241`): resolve
the milestone title (error when absent), then run the label pass — skipped
entirely when `labels` is empty (`release.rs:198-200`) — followed by the
milestone pass, collecting the id set and the concatenated issue list. -/
def search_issues (milestones : List Milestone) (milestone_title : String)
    (labels exclude_labels : List String) (since_date : Int)
    (label_pages milestone_pages : List (List Issue)) :
    Except String (List Nat × List Issue) :=
  match milestones.find? (fun m => m.title == milestone_title) with
  | none => .error (milestone_title ++ " milestone not found")
  | some _ =>
    let label_results :=
      if labels.isEmpty then []
      else searchPass since_date exclude_labels label_pages
    let milestone_results := searchPass since_date exclude_labels milestone_pages
    let issues := label_results ++ milestone_results
    .ok (collectIds [] issues, issues)

/-! ### Issue filter hook (`ReleaseArgs::run`, `release.rs:113-124`)

The hook is an external process; its captured standard output is the
`hook_output` string.  Each output line is parsed as a `u64` (a parse
failure aborts with an error); a parsed id is removed from the id set, and
when the removal succeeds every issue with that number is dropped from the
issue list. -/

/-- Loop body of the hook filter: process the parsed output lines in order. -/
def applyFilterHookGo : List String → List Nat → List Issue →
    Except String (List Nat × List Issue)
  | [], issue_ids, issues => .ok (issue_ids, issues)
  | line :: rest, issue_ids, issues =>
    match parseU64 line with
    | none => .error "invalid issue id in hook output"
    | some issue_id =>
      if issue_ids.contains issue_id then
        applyFilterHookGo rest (issue_ids.filter (fun n => n ≠ issue_id))
          (issues.filter (fun issue => issue.number ≠ issue_id))
      else
        applyFilterHookGo rest issue_ids issues

/-- Embedding of the `filter_issue_hook` block of `ReleaseArgs::run`
(`release.rs:113-124`). -/
def applyFilterHook (hook_output : String) (issue_ids : List Nat) (issues : List Issue) :
    Except String (List Nat × List Issue) :=
  applyFilterHookGo (rustLines hook_output) issue_ids issues

/-! ### Note files (`read_note_file`, `release.rs:148-157`) -/

/-- Filesystem collaborator: existence / regular-file queries and file
reading (`none` models a read error, mapped to `""` by `unwrap_or_default`).
Paths are strings, as they originate from CLI string arguments. -/
structure FileSystem where
  pathExists : String → Bool
  isFile : String → Bool
  readToString : String → Option String

/-- Embedding of `read_note_file`: an absent or non-regular-file path is
returned verbatim as the note text; otherwise the file contents (or `""` on
a read error). -/
def read_note_file (fs : FileSystem) (path : String) : String :=
  if !(fs.pathExists path) || !(fs.isFile path) then path
  else (fs.readToString path).getD ""

/-! ### Release-note composition (`ReleaseArgs::create_release`,
`release.rs:243-367`)

`IndexMap<String, Vec<&Issue>>` is modelled as an insertion-ordered
association list, `IndexSet<&String>` as an insertion-ordered duplicate-free
list, and the mutable `HashSet<u64>` of issue ids as a list queried by
membership (its iteration order is never used by the source). -/

/-- Insertion-ordered map of section key to filed issues. -/
abbrev Sections := List (String × List Issue)

/-- Model of `IndexMap::insert`: replace the value in place when the key is
present (keeping its position), else append a new entry. -/
def indexMapInsert (m : Sections) (key : String) (v : List Issue) : Sections :=
  if m.any (fun p => p.1 == key) then
    m.map (fun p => if p.1 == key then (p.1, v) else p)
  else
    m ++ [(key, v)]

/-- Model of `sections.get_mut(&key).unwrap().push(issue)`: append the issue
to the entry with the given key. -/
def indexMapPush (m : Sections) (key : String) (issue : Issue) : Sections :=
  m.map (fun p => if p.1 == key then (p.1, p.2 ++ [issue]) else p)

/-- Model of `IndexSet::insert`: append when absent. -/
def indexSetInsert (s : List String) (x : String) : List String :=
  if s.contains x then s else s ++ [x]

/-- Embedding of the `get_section_key` closure (`release.rs:264-270`): the
substring after the last `/`, or the label itself when it has no `/`. -/
def get_section_key (label : String) : String :=
  if label.data.any (fun c => c == '/') then ((strSplitOnChar label '/').getLastD label)
  else label

/-- Initial section map (`release.rs:272-275`): one empty entry per section
label key, in order, then the catch-all `misc` entry. -/
def initSections (note_section_labels : List String) : Sections :=
  indexMapInsert
    (note_section_labels.foldl (fun m label => indexMapInsert m (get_section_key label) []) [])
    "misc" []

/-- Section key chosen for an issue (`release.rs:287-293`): the key of the
first section label the issue carries, else `misc`. -/
def sectionKeyFor (note_section_labels : List String) (issue : Issue) : String :=
  match note_section_labels.find? (fun label => issue.labels.any (fun it => it.name == label)) with
  | some label => get_section_key label
  | none => "misc"

/-- Filing loop of `create_release` (`release.rs:277-296`): per issue in
input order, skip it when its number is no longer in the id set, otherwise
remove the number from the set, merge its assignees into the contributor
set, and push it into its section. -/
def fileIssues (note_section_labels : List String) :
    List Issue → List Nat → Sections → List String →
    List Nat × Sections × List String
  | [], issue_ids, sections, contributors => (issue_ids, sections, contributors)
  | issue :: rest, issue_ids, sections, contributors =>
    if issue_ids.contains issue.number then
      fileIssues note_section_labels rest
        (issue_ids.filter (fun n => n ≠ issue.number))
        (indexMapPush sections (sectionKeyFor note_section_labels issue) issue)
        (issue.assignees.foldl (fun c a => indexSetInsert c a.login) contributors)
    else
      fileIssues note_section_labels rest issue_ids sections contributors

/-- Number of occurrences of issues with a given number across all
sections. -/
def sectionsCount (s : Sections) (n : Nat) : Nat :=
  (s.map (fun p => p.2.countP (fun i => i.number == n))).sum

/-- Total number of issue entries filed across all sections. -/
def sectionsSize (s : Sections) : Nat :=
  (s.map (fun p => p.2.length)).sum

/-- Capitalise a word: first character upper-case, the rest lower-case. -/
def titleWord (w : List Char) : String :=
  match w with
  | [] => ""
  | c :: rest => String.mk (c.toUpper :: rest.map Char.toLower)

/-- Word splitter for title-casing: words are separated by spaces, hyphens
and underscores, with an extra boundary at a lower-to-upper case change. -/
def splitWordsAux : List Char → List Char → List (List Char)
  | [], acc => if acc.isEmpty then [] else [acc.reverse]
  | c :: cs, acc =>
    if c == ' ' || c == '-' || c == '_' then
      if acc.isEmpty then splitWordsAux cs []
      else acc.reverse :: splitWordsAux cs []
    else if c.isUpper && (match acc with | a :: _ => a.isLower | [] => false) then
      acc.reverse :: splitWordsAux cs [c]
    else
      splitWordsAux cs (c :: acc)

/-- Model of `convert_case` `to_case(Case::Title)` as applied to the
label-derived section keys: split into words, capitalise each, join with
spaces. -/
def toCaseTitle (s : String) : String :=
  String.intercalate " " ((splitWordsAux s.data []).map titleWord)

/-- One issue bullet of a rendered section (`release.rs:310-322`). -/
def issueBullet (issue : Issue) : String :=
  "- " ++ issue.title ++ " [" ++ toString issue.number ++ "](" ++ issue.html_url ++ ") - "
    ++ String.intercalate " " (issue.assignees.map (fun it => "@" ++ it.login)) ++ "\n"

/-- Rendering of one section (`release.rs:298-324`): empty sections render
nothing; pull-request-flavoured issues (URL containing `pull`) are skipped. -/
def renderSection (p : String × List Issue) : String :=
  if p.2.isEmpty then ""
  else
    "\n### " ++ toCaseTitle p.1 ++ "\n" ++
      String.join (p.2.map (fun issue =>
        if strContainsSubstr issue.html_url "pull" then "" else issueBullet issue))

/-- Rendered text of all sections, in map order. -/
def sectionsText (sections : Sections) : String :=
  String.join (sections.map renderSection)

/-- Byte-order (equivalently code-point-order) comparison of strings, the
order Rust `sort` uses on `String`. -/
def charListLe : List Char → List Char → Bool
  | [], _ => true
  | _ :: _, [] => false
  | a :: as, b :: bs => a < b || (a == b && charListLe as bs)

/-- Insert into a sorted list (insertion sort step). -/
def insertSorted (x : String) : List String → List String
  | [] => [x]
  | y :: ys => if charListLe x.data y.data then x :: y :: ys else y :: insertSorted x ys

/-- Model of `contributors.sort()`: lexicographic sort of the contributor
set. -/
def sortStrings (l : List String) : List String :=
  l.foldr insertSorted []

/-- Trailing contributors block (`release.rs:328-332`). -/
def contributorsText (contributors : List String) : String :=
  "\n## Contributors\n" ++
    String.join ((sortStrings contributors).map (fun c => "- @" ++ c ++ " \n"))

/-- Embedding of the note-building part of `ReleaseArgs::create_release`
(`release.rs:243-367`): returns the rendered note and the final id set (the
source mutates `issue_ids` in place).  The `gh release create` invocation
guarded by `dryrun` is an external effect outside the model. -/
def create_release (note_section_labels note_contributors : List String)
    (issue_ids : List Nat) (issues : List Issue) (pre_note post_note : String) :
    String × List Nat :=
  let start := note_contributors.foldl indexSetInsert []
  let r := fileIssues note_section_labels issues issue_ids (initSections note_section_labels) start
  (pre_note ++ sectionsText r.2.1 ++ post_note ++ contributorsText r.2.2, r.1)

/-! ### Previous-tag resolution (`GitCli::previous_tag`, `git.rs:198-229`)

The tag list is the line output of `git tag --sort -committerdate`
(newest first), supplied as a list of tag names.  The `semver` crate's
`Version::parse` is embedded below; the source calls `.unwrap()` on its
result, so a parse failure is a panic, modelled by a dedicated result
constructor. -/

/-- Character class of semver pre-release / build identifiers. -/
def isAlphanumHyphen (c : Char) : Bool :=
  c.isAlpha || c.isDigit || c == '-'

/-- Numeric identifier of a semver core version: digits only, no leading
zero (unless the identifier is exactly `0`). -/
def parseNumericId (l : List Char) : Option Nat :=
  if l.isEmpty then none
  else if !(l.all Char.isDigit) then none
  else if l.length > 1 && l.head? == some '0' then none
  else some (digitsVal l)

/-- Validity of one dot-separated pre-release identifier: non-empty,
alphanumeric or hyphen, and no leading zero when fully numeric. -/
def validPreId (l : List Char) : Bool :=
  !l.isEmpty && l.all isAlphanumHyphen &&
    (if l.all Char.isDigit then !(l.length > 1 && l.head? == some '0') else true)

/-- Validity of one dot-separated build identifier: non-empty, alphanumeric
or hyphen. -/
def validBuildId (l : List Char) : Bool :=
  !l.isEmpty && l.all isAlphanumHyphen

/-- Parsed semantic version, with the raw pre-release and build text. -/
structure Semver where
  major : Nat
  minor : Nat
  patch : Nat
  pre : String
  build : String
deriving DecidableEq, Repr

/-- Split a character list at the first occurrence of the separator, when
present. -/
def splitOnFirstChar (sep : Char) (l : List Char) : List Char × Option (List Char) :=
  match splitOnCharAux sep l [] with
  | [] => (l, none)
  | [x] => (x, none)
  | x :: y :: rest => (x, some (List.intercalate [sep] (y :: rest)))

/-- Embedding of `semver::Version::parse`: `MAJOR.MINOR.PATCH` with optional
`-PRE` and `+BUILD` components, numeric core identifiers without leading
zeros, and valid dot-separated pre-release / build identifiers. -/
def semverParse (s : String) : Option Semver :=
  let (vcore, build) := splitOnFirstChar '+' s.data
  let (core, pre) := splitOnFirstChar '-' vcore
  match splitOnCharAux '.' core [] with
  | [a, b, c] =>
    match parseNumericId a, parseNumericId b, parseNumericId c with
    | some major, some minor, some patch =>
      let preOk := match pre with
        | none => true
        | some p => (splitOnCharAux '.' p []).all validPreId
      let buildOk := match build with
        | none => true
        | some bd => (splitOnCharAux '.' bd []).all validBuildId
      if preOk && buildOk then
        some ⟨major, minor, patch,
          String.mk (pre.getD []), String.mk (build.getD [])⟩
      else none
    | _, _, _ => none
  | _ => none

/-- Model of Rust `str::trim_start_matches('v')`: drop every leading `v`. -/
def stripLeadingV (s : String) : String :=
  String.mk (s.data.dropWhile (fun c => c == 'v'))

/-- Outcome of `previous_tag`: the selected tag, the `previous tag not
found` error, or a panic of the `semver` `unwrap`. -/
inductive PrevTagOutcome
  | found (t : String)
  | noPrevTag
  | panicked
deriving DecidableEq, Repr

/-- Scanning closure of `previous_tag` (`git.rs:205-222`): with a non-empty
reference tag, skip lines until the reference tag has been seen; from then
on (or from the start when the reference is empty) the line is a candidate:
without `is_public` it is selected outright; with `is_public` its name,
after stripping leading `v`s, is parsed as a semantic version — the parse
result is **unwrapped** (panic on failure) — and the candidate is selected
exactly when the pre-release component is empty. -/
def previousTagGo (tag : String) (is_public : Bool) :
    List String → Bool → PrevTagOutcome
  | [], _ => .noPrevTag
  | s :: rest, tag_found =>
    if (!tag.isEmpty && tag_found) || tag.isEmpty then
      if is_public then
        match semverParse (stripLeadingV s) with
        | none => .panicked
        | some v =>
          if v.pre.isEmpty then .found s
          else previousTagGo tag is_public rest tag_found
      else .found s
    else
      previousTagGo tag is_public rest (s == tag)

/-- Embedding of `GitCli::previous_tag` (`git.rs:198-229`) over the
newest-first tag-name list. -/
def previous_tag (tags : List String) (tag : String) (is_public : Bool) : PrevTagOutcome :=
  previousTagGo tag is_public tags false

/-! ### Commit scanning and changelog rendering (`generate_repo_report`,
`changelog.rs:122-201`)

The paginated commit query is modelled by the finite list of pages the
tracker serves in order (after which it serves empty pages; an upstream
error ends the stream the same way the source's `Err` arm does, by
stopping the outer loop).  The fields of `octocrab::models::commits::Commit`
read by the source are embedded below. -/

/-- Nested commit object carrying the message. -/
structure CommitInner where
  message : String
deriving DecidableEq, Repr

/-- Commit author; the source only reads `login`. -/
structure CommitAuthor where
  login : String
deriving DecidableEq, Repr

/-- The slice of a GitHub commit consumed by `generate_repo_report`. -/
structure Commit where
  sha : String
  commit : CommitInner
  html_url : String
  author : Option CommitAuthor
deriving DecidableEq, Repr

/-- Hash-prefix match (`commit.sha.starts_with(&hash)`). -/
def shaMatches (hash : String) (c : Commit) : Bool :=
  strStartsWith c.sha hash

/-- Inner per-page commit loop (`changelog.rs:145-170`), collecting the
recorded commits.  State: `tag_found`; results: recorded commits of this
page, updated `tag_found`, and whether the `break 'outer` on a
previous-tag hash-prefix match fired. -/
def scanPage (tag_hash prev_tag_hash : String) (is_find_prev_tag : Bool) :
    List Commit → Bool → List Commit × Bool × Bool
  | [], tag_found => ([], tag_found, false)
  | c :: rest, tag_found =>
    let fallthrough : Option Bool :=
      if !tag_found then
        if shaMatches tag_hash c then some true else none
      else some tag_found
    match fallthrough with
    | none => scanPage tag_hash prev_tag_hash is_find_prev_tag rest tag_found
    | some tf =>
      if !is_find_prev_tag || tf then
        if tf && shaMatches prev_tag_hash c then ([], tf, true)
        else
          let r := scanPage tag_hash prev_tag_hash is_find_prev_tag rest tf
          (c :: r.1, r.2.1, r.2.2)
      else
        scanPage tag_hash prev_tag_hash is_find_prev_tag rest tf

/-- Outer pagination loop (`changelog.rs:126-177`): stop on an empty page,
or stop everything when the inner loop hit the previous-tag boundary. -/
def scanPages (tag_hash prev_tag_hash : String) (is_find_prev_tag : Bool) :
    List (List Commit) → Bool → List Commit
  | [], _ => []
  | page :: rest, tag_found =>
    if page.isEmpty then []
    else
      let r := scanPage tag_hash prev_tag_hash is_find_prev_tag page tag_found
      if r.2.2 then r.1
      else r.1 ++ scanPages tag_hash prev_tag_hash is_find_prev_tag rest r.2.1

/-- Commits recorded by the scan of `generate_repo_report`, in scan order. -/
def scan_commits (tag_hash prev_tag_hash : String) (is_find_prev_tag : Bool)
    (pages : List (List Commit)) : List Commit :=
  scanPages tag_hash prev_tag_hash is_find_prev_tag pages false

/-- Flat sequence of commits the outer loop actually iterates over: the
served pages up to (excluding) the first empty one, concatenated. -/
def pagesStream (pages : List (List Commit)) : List Commit :=
  (pages.takeWhile (fun p => !p.isEmpty)).flatten

/-- One changelog bullet (`changelog.rs:161-168`): the first line of the
commit message — the source unwraps `lines().next()`, which panics for an
empty message, modelled as `none` — the first eight characters of the hash
(the source's byte slice `[0..8]` panics on a shorter hash), the commit
URL, and a `by @login` suffix only when an author is present. -/
def commitBullet (c : Commit) : Option String :=
  match rustLinesNext c.commit.message with
  | none => none
  | some subject =>
    if c.sha.data.length < 8 then none
    else
      some ("- " ++ subject ++ " [" ++ String.mk (c.sha.data.take 8) ++ "](" ++ c.html_url
        ++ ") " ++ (match c.author with
                    | some a => "by @" ++ a.login
                    | none => "") ++ "\n")

/-- Embedding of `generate_repo_report` after tag-hash resolution: scan the
pages, render every recorded commit (a rendering panic aborts the whole
report), and wrap the fragment in the collapsible block or the level-3
heading (`changelog.rs:179-198`). -/
def generate_repo_report (repo_ref tag_hash prev_tag_hash : String)
    (is_find_prev_tag is_markdown_folding : Bool) (pages : List (List Commit)) :
    Option String :=
  match (scan_commits tag_hash prev_tag_hash is_find_prev_tag pages).mapM commitBullet with
  | none => none
  | some bullets =>
    let changelog := String.join bullets
    if is_markdown_folding then
      some ("<details>\n<summary>" ++ repo_ref ++ "</summary>\n\n" ++ changelog
        ++ "\n</details>\n")
    else
      some ("### " ++ repo_ref ++ "\n" ++ changelog ++ "\n")

/-! ### Multi-repository fan-out (`ChangelogArgs::run`, `changelog.rs:50-76`)

Tasks are joined in completion order; the completion-order sequence of task
results is the input list.  `res??` propagates the first error encountered,
abandoning the accumulated document. -/

/-- Join loop of `ChangelogArgs::run`: accumulate fragments until a task
result is an error, which is returned as the overall outcome. -/
def changelogJoinGo {E : Type} : String → List (Except E String) → Except E String
  | acc, [] => .ok acc
  | acc, r :: rest =>
    match r with
    | .ok s => changelogJoinGo (acc ++ s) rest
    | .error e => .error e

/-- Embedding of `ChangelogArgs::run` over the completion-order task
results: the concatenated changelog document, or the first task error. -/
def changelog_run {E : Type} (results : List (Except E String)) : Except E String :=
  changelogJoinGo "" results

/-! ## Theorems -/

/-! ### C4 — pagination termination of the two search passes -/

/-- C4 (counterexample).  A page that is non-empty as returned by the
tracker *does* terminate the pass when every issue on it is dropped by the
client-side filters: with exclude label `x`, a first page holding only an
`x`-labelled issue ends the pass, so the retained issue on the second page
is never collected — refuting the claim that only a tracker-empty page
terminates a pass. -/
theorem searchPass_stops_on_filtered_out_page :
    searchPass 0 ["x"] [[⟨1, "t", "u", [⟨"x"⟩], [], none⟩], [⟨2, "t2", "u2", [], [], none⟩]] = []
    ∧ ([(⟨1, "t", "u", [⟨"x"⟩], [], none⟩ : Issue)] ≠ ([] : List Issue))
    ∧ retainIssue 0 ["x"] ⟨2, "t2", "u2", [], [], none⟩ = true
    ∧ (⟨2, "t2", "u2", [], [], none⟩ : Issue) ∉
        searchPass 0 ["x"] [[⟨1, "t", "u", [⟨"x"⟩], [], none⟩], [⟨2, "t2", "u2", [], [], none⟩]] := by
  refine ⟨by decide, by decide, by decide, by decide⟩

/-- C4 (amended, proved).  Each search pass advances page by page and
terminates exactly at the first page that is empty *after* the client-side
closed-too-long-ago and exclude-labels filters: the collected output is the
concatenation of the filtered pages strictly before that point. -/
theorem searchPass_eq_filtered_pages_until_empty (since_date : Int) (ex : List String)
    (pages : List (List Issue)) :
    searchPass since_date ex pages =
      ((pages.map (fun page => page.filter (retainIssue since_date ex))).takeWhile
        (fun r => !r.isEmpty)).flatten := by
  induction pages with
  | nil => rfl
  | cons pg rest ih =>
    simp only [searchPass, List.map_cons, List.takeWhile_cons]
    cases h : (pg.filter (retainIssue since_date ex)).isEmpty with
    | true => simp [h]
    | false => simp [h, ih]

/-! ### C10 — empty label list skips the label pass -/

/-- C10.  With an empty label list the label search pass is skipped before
any page is requested: the result does not depend on what the label query
would have served, and the aggregate equals the milestone pass alone. -/
theorem search_issues_empty_labels (ms : List Milestone) (mt : String) (m0 : Milestone)
    (ex : List String) (d : Int) (lp lp2 mp : List (List Issue))
    (h : ms.find? (fun m => m.title == mt) = some m0) :
    search_issues ms mt [] ex d lp mp = search_issues ms mt [] ex d lp2 mp ∧
    search_issues ms mt [] ex d lp mp =
      .ok (collectIds [] (searchPass d ex mp), searchPass d ex mp) := by
  constructor
  · simp [search_issues]
  · simp [search_issues, h]

/-- C10 (witness). -/
theorem search_issues_empty_labels_witness :
    search_issues [⟨3, "v1.5.0"⟩] "v1.5.0" [] [] 0
        [[⟨1, "t", "u", [], [], none⟩]] [[⟨2, "t2", "u2", [], [], none⟩]] =
      search_issues [⟨3, "v1.5.0"⟩] "v1.5.0" [] [] 0 [] [[⟨2, "t2", "u2", [], [], none⟩]] ∧
    search_issues [⟨3, "v1.5.0"⟩] "v1.5.0" [] [] 0
        [[⟨1, "t", "u", [], [], none⟩]] [[⟨2, "t2", "u2", [], [], none⟩]] =
      .ok (collectIds [] (searchPass 0 [] [[⟨2, "t2", "u2", [], [], none⟩]]),
           searchPass 0 [] [[⟨2, "t2", "u2", [], [], none⟩]]) :=
  search_issues_empty_labels [⟨3, "v1.5.0"⟩] "v1.5.0" ⟨3, "v1.5.0"⟩ [] 0
    [[⟨1, "t", "u", [], [], none⟩]] [] [[⟨2, "t2", "u2", [], [], none⟩]] (by rfl)

/-! ### C7 — fan-out error propagation -/

/-- Helper for C7: the join loop returns the first error regardless of the
accumulated fragments before it. -/
theorem changelogJoinGo_first_error {E : Type} (e : E) (rest : List (Except E String)) :
    ∀ (pre : List (Except E String)) (acc : String), (∀ r ∈ pre, ∃ s, r = .ok s) →
      changelogJoinGo acc (pre ++ .error e :: rest) = .error e
  | [], acc, _ => by simp [changelogJoinGo]
  | r :: pre, acc, h => by
    obtain ⟨s, hs⟩ := h r (by simp)
    subst hs
    simpa [changelogJoinGo] using
      changelogJoinGo_first_error e rest pre (acc ++ s) (fun r hr => h r (by simp [hr]))

/-- C7.  If any task of the multi-repository fan-out fails, the whole run
returns the first (in completion order) task error, and no changelog
document is produced: the fragments accumulated from already-completed
tasks are discarded. -/
theorem changelog_run_aborts_on_task_error {E : Type} (pre rest : List (Except E String))
    (e : E) (h : ∀ r ∈ pre, ∃ s, r = .ok s) :
    changelog_run (pre ++ .error e :: rest) = .error e ∧
    ∀ doc, changelog_run (pre ++ .error e :: rest) ≠ .ok doc := by
  have h1 : changelog_run (pre ++ .error e :: rest) = .error e :=
    changelogJoinGo_first_error e rest pre "" h
  exact ⟨h1, fun doc hc => by rw [h1] at hc; exact Except.noConfusion hc⟩

/-- C7 (witness). -/
theorem changelog_run_aborts_on_task_error_witness :
    changelog_run ([.ok "repo-a fragment", .error "clone failed", .ok "repo-c fragment"] :
        List (Except String String)) = .error "clone failed" ∧
    ∀ doc, changelog_run ([.ok "repo-a fragment", .error "clone failed", .ok "repo-c fragment"] :
        List (Except String String)) ≠ .ok doc :=
  changelog_run_aborts_on_task_error [.ok "repo-a fragment"] [.ok "repo-c fragment"]
    "clone failed" (by intro r hr; simp at hr; exact ⟨"repo-a fragment", hr⟩)

/-! ### C2 — `previous_tag` on unparseable tag names -/

/-- C2.  Contrary to the claim (and to the function's own graceful
`previous tag not found` error path), a candidate tag whose name fails to
parse as a semantic version is not skipped under `public_only = true`: the
source unwraps the parse result and panics.  With reference tag `v1.5.1`
and tag list `[v1.5.1, latest, v1.5.0]` (newest first), the candidate
`latest` is unparseable and the scan panics instead of skipping to
`v1.5.0`; removing `latest` shows the intended selection. -/
theorem previous_tag_panics_on_unparseable_tag :
    previous_tag ["v1.5.1", "latest", "v1.5.0"] "v1.5.1" true = .panicked ∧
    semverParse (stripLeadingV "latest") = none ∧
    previous_tag ["v1.5.1", "v1.5.0"] "v1.5.1" true = .found "v1.5.0" := by
  refine ⟨by decide, by decide, by decide⟩

/-! ### C8 — note files with invalid paths -/

/-- C8 (counterexample).  The empty string is a path that does not exist,
and `read_note_file` returns it verbatim — an *empty* note — refuting the
claim's "does not yield an empty note" for every invalid path. -/
theorem read_note_file_empty_path_empty_note :
    read_note_file ⟨fun _ => false, fun _ => false, fun _ => none⟩ "" = "" ∧
    (⟨fun _ => false, fun _ => false, fun _ => none⟩ : FileSystem).pathExists "" = false :=
  ⟨rfl, rfl⟩

/-- C8 (amended, proved).  For every pre-note or post-note path that does
not exist or is not a regular file, reading the note file does not fail:
the returned note text is the path string itself (hence empty only when the
path string is empty), and it is embedded verbatim into the composed
release note. -/
theorem read_note_file_invalid_path_returns_path (fs : FileSystem) (path : String)
    (h : fs.pathExists path = false ∨ fs.isFile path = false) :
    read_note_file fs path = path ∧
    (path ≠ "" → read_note_file fs path ≠ "") ∧
    ∀ sl nc ids issues post_note, ∃ mid tl,
      (create_release sl nc ids issues (read_note_file fs path) post_note).1
        = read_note_file fs path ++ mid ++ post_note ++ tl := by
  have h1 : read_note_file fs path = path := by
    unfold read_note_file
    rcases h with h | h <;> simp [h]
  refine ⟨h1, fun hne => by rw [h1]; exact hne, ?_⟩
  intro sl nc ids issues post_note
  exact ⟨_, _, rfl⟩

/-- C8 (witness). -/
theorem read_note_file_invalid_path_returns_path_witness :
    ((⟨fun _ => false, fun _ => false, fun _ => none⟩ : FileSystem).pathExists "/nope.md" = false
      ∨ (⟨fun _ => false, fun _ => false, fun _ => none⟩ : FileSystem).isFile "/nope.md" = false) ∧
    (read_note_file ⟨fun _ => false, fun _ => false, fun _ => none⟩ "/nope.md" = "/nope.md" ∧
     ("/nope.md" ≠ "" → read_note_file ⟨fun _ => false, fun _ => false, fun _ => none⟩ "/nope.md" ≠ "") ∧
     ∀ sl nc ids issues post_note, ∃ mid tl,
       (create_release sl nc ids issues
           (read_note_file ⟨fun _ => false, fun _ => false, fun _ => none⟩ "/nope.md") post_note).1
         = read_note_file ⟨fun _ => false, fun _ => false, fun _ => none⟩ "/nope.md"
             ++ mid ++ post_note ++ tl) :=
  ⟨Or.inl rfl,
   read_note_file_invalid_path_returns_path ⟨fun _ => false, fun _ => false, fun _ => none⟩
     "/nope.md" (Or.inl rfl)⟩

/-! ### C1 — filter hook semantics -/

/-- C1 (counterexample).  The hook's printed ids are *dropped*, not
retained: with the aggregated state holding exactly issue `1` and the hook
printing `1`, the issue is removed, refuting "retained if and only if its
id appears in the hook's output". -/
theorem filter_hook_drops_printed_id :
    applyFilterHook "1" [1] [⟨1, "t", "u", [], [], none⟩] = .ok ([], []) ∧
    rustLines "1" = ["1"] ∧ parseU64 "1" = some 1 :=
  ⟨rfl, by decide, by decide⟩

/-- Bridge from the executable `List.contains` to membership. -/
theorem contains_eq_decide_mem {α : Type} [DecidableEq α] (l : List α) (x : α) :
    l.contains x = decide (x ∈ l) := by
  simp [List.contains]

/-- Helper for C1: batch characterisation of the sequential hook-filter
loop.  When every hook output line parses, the loop drops from the id set
exactly the printed ids, and drops from the issue list exactly the issues
whose number was printed *and* was present in the incoming id set. -/
theorem applyFilterHookGo_spec :
    ∀ (lines : List String) (ids : List Nat) (issues : List Issue),
    (∀ l ∈ lines, (parseU64 l).isSome) →
    applyFilterHookGo lines ids issues =
      .ok (ids.filter (fun n => !((lines.filterMap parseU64).contains n)),
           issues.filter (fun i =>
             !(((lines.filterMap parseU64).contains i.number) && ids.contains i.number)))
  | [], ids, issues, _ => by
    simp [applyFilterHookGo, List.filter_true]
  | line :: rest, ids, issues, h => by
    obtain ⟨a, ha⟩ := Option.isSome_iff_exists.mp (h line (by simp))
    have hrest : ∀ l ∈ rest, (parseU64 l).isSome := fun l hl => h l (by simp [hl])
    simp only [applyFilterHookGo, ha]
    rw [List.filterMap_cons_some ha]
    cases hc : ids.contains a with
    | true =>
      rw [if_pos rfl]
      rw [applyFilterHookGo_spec rest _ _ hrest]
      have hmem : a ∈ ids := by
        have := contains_eq_decide_mem ids a
        rw [hc] at this
        exact of_decide_eq_true this.symm
      refine congrArg Except.ok ?_
      rw [Prod.mk.injEq]
      refine ⟨?_, ?_⟩
      · rw [List.filter_filter]
        refine List.filter_congr ?_
        intro n hn
        by_cases h1 : n = a <;> by_cases h2 : n ∈ rest.filterMap parseU64 <;>
          simp [h1, h2, contains_eq_decide_mem]
      · rw [List.filter_filter]
        refine List.filter_congr ?_
        intro i hi
        by_cases h1 : i.number = a <;>
          by_cases h2 : i.number ∈ rest.filterMap parseU64 <;>
          by_cases h3 : i.number ∈ ids <;>
          simp [h1, h2, h3, contains_eq_decide_mem, List.mem_filter, hmem]
    | false =>
      rw [if_neg Bool.false_ne_true]
      rw [applyFilterHookGo_spec rest _ _ hrest]
      have hmem : a ∉ ids := by
        have := contains_eq_decide_mem ids a
        rw [hc] at this
        exact of_decide_eq_false this.symm
      refine congrArg Except.ok ?_
      rw [Prod.mk.injEq]
      refine ⟨?_, ?_⟩
      · refine List.filter_congr ?_
        intro n hn
        have hna : n ≠ a := fun hcontra => hmem (hcontra ▸ hn)
        by_cases h2 : n ∈ rest.filterMap parseU64 <;>
          simp [hna, h2, contains_eq_decide_mem]
      · refine List.filter_congr ?_
        intro i hi
        by_cases h1 : i.number = a <;>
          by_cases h2 : i.number ∈ rest.filterMap parseU64 <;>
          by_cases h3 : i.number ∈ ids <;>
          simp [h1, h2, h3, contains_eq_decide_mem, hmem]

/-- C1 (amended, proved).  When the filter hook executes successfully and
every output line parses as an id, the issues remaining after hook
filtering are exactly those whose ids the hook did *not* print (among ids
present in the aggregated id set): an aggregated issue is dropped if and
only if its id appears in the hook's output and was in the id set, and the
id set loses exactly the printed ids. -/
theorem applyFilterHook_drops_printed_ids (out : String) (ids : List Nat)
    (issues : List Issue) (h : ∀ l ∈ rustLines out, (parseU64 l).isSome) :
    applyFilterHook out ids issues =
      .ok (ids.filter (fun n => !(((rustLines out).filterMap parseU64).contains n)),
           issues.filter (fun i =>
             !((((rustLines out).filterMap parseU64).contains i.number)
               && ids.contains i.number))) :=
  applyFilterHookGo_spec (rustLines out) ids issues h

/-- C1 (witness). -/
theorem applyFilterHook_drops_printed_ids_witness :
    (∀ l ∈ rustLines "2\n5", (parseU64 l).isSome) ∧
    applyFilterHook "2\n5" [2, 3] [⟨2, "a", "u", [], [], none⟩, ⟨3, "b", "v", [], [], none⟩] =
      .ok ([2, 3].filter (fun n => !(((rustLines "2\n5").filterMap parseU64).contains n)),
           [⟨2, "a", "u", [], [], none⟩, ⟨3, "b", "v", [], [], none⟩].filter (fun i =>
             !((((rustLines "2\n5").filterMap parseU64).contains i.number)
               && ([2, 3] : List Nat).contains i.number))) :=
  ⟨by decide,
   applyFilterHook_drops_printed_ids "2\n5" [2, 3]
     [⟨2, "a", "u", [], [], none⟩, ⟨3, "b", "v", [], [], none⟩] (by decide)⟩

/-! ### C9 — changelog rendering panics on an empty commit message -/

/-- Helper: an option-valued map over a list fails when it fails on any
member. -/
theorem mapM_eq_none_of_mem {α β : Type} (f : α → Option β) :
    ∀ (l : List α) (x : α), x ∈ l → f x = none → l.mapM f = none
  | a :: rest, x, hx, hfx => by
    rw [List.mapM_cons]
    rcases List.mem_cons.mp hx with h | h
    · subst h
      rw [hfx]
      rfl
    · rw [mapM_eq_none_of_mem f rest x h hfx]
      cases f a <;> rfl

/-- C9.  A recorded in-window commit whose message is the empty string makes
changelog bullet rendering panic (the source unwraps `lines().next()`,
which is `None`): the bullet is `none` rather than a bullet with an empty
subject, and the whole repository report aborts. -/
theorem commitBullet_panics_on_empty_message (repo_ref tag_hash prev_tag_hash : String)
    (fp fold : Bool) (pages : List (List Commit)) (c : Commit)
    (hmem : c ∈ scan_commits tag_hash prev_tag_hash fp pages)
    (hmsg : c.commit.message = "") :
    commitBullet c = none ∧
    generate_repo_report repo_ref tag_hash prev_tag_hash fp fold pages = none := by
  have hb : commitBullet c = none := by
    unfold commitBullet rustLinesNext rustLines
    rw [hmsg]
    rfl
  refine ⟨hb, ?_⟩
  unfold generate_repo_report
  rw [mapM_eq_none_of_mem commitBullet _ c hmem hb]

/-- C9 (witness).  A single-page history whose tag commit has an empty
message: the commit is recorded and the report rendering aborts. -/
theorem commitBullet_panics_on_empty_message_witness :
    (⟨"t1234567", ⟨""⟩, "u", none⟩ : Commit) ∈
      scan_commits "t" "p" true [[⟨"t1234567", ⟨""⟩, "u", none⟩]] ∧
    ((⟨"t1234567", ⟨""⟩, "u", none⟩ : Commit).commit.message = "") ∧
    (commitBullet ⟨"t1234567", ⟨""⟩, "u", none⟩ = none ∧
     generate_repo_report "o/r" "t" "p" true false [[⟨"t1234567", ⟨""⟩, "u", none⟩]] = none) :=
  ⟨by decide, rfl,
   commitBullet_panics_on_empty_message "o/r" "t" "p" true false
     [[⟨"t1234567", ⟨""⟩, "u", none⟩]] ⟨"t1234567", ⟨""⟩, "u", none⟩ (by decide) rfl⟩

/-! ### C6 — release-note composition is deterministic -/

/-- Helper for C6: the filing loop's sections and contributors depend on
the id set only through membership, and membership-equivalence of the id
sets is preserved. -/
theorem fileIssues_congr (sl : List String) :
    ∀ (issues : List Issue) (ids₁ ids₂ : List Nat) (s : Sections) (c : List String),
    (∀ n, n ∈ ids₁ ↔ n ∈ ids₂) →
    (fileIssues sl issues ids₁ s c).2 = (fileIssues sl issues ids₂ s c).2 ∧
    ∀ n, n ∈ (fileIssues sl issues ids₁ s c).1 ↔ n ∈ (fileIssues sl issues ids₂ s c).1
  | [], ids₁, ids₂, s, c, h => ⟨rfl, h⟩
  | issue :: rest, ids₁, ids₂, s, c, h => by
    have hc : ids₁.contains issue.number = ids₂.contains issue.number := by
      rw [contains_eq_decide_mem, contains_eq_decide_mem]
      by_cases hm : issue.number ∈ ids₁
      · rw [decide_eq_true hm, decide_eq_true ((h issue.number).mp hm)]
      · rw [decide_eq_false hm, decide_eq_false (fun hx => hm ((h issue.number).mpr hx))]
    simp only [fileIssues, hc]
    cases hc2 : ids₂.contains issue.number with
    | true =>
      rw [if_pos rfl, if_pos rfl]
      exact fileIssues_congr sl rest _ _ _ _ (fun n => by
        simp only [List.mem_filter, decide_eq_true_eq]
        exact and_congr_left (fun _ => h n))
    | false =>
      rw [if_neg Bool.false_ne_true, if_neg Bool.false_ne_true]
      exact fileIssues_congr sl rest ids₁ ids₂ s c h

/-- C6.  Release-note composition is deterministic: its output text depends
on the mutable id set only through membership, so two invocations with the
same issues, section labels, extra contributors, pre-note and post-note
(each with a fresh copy of the id set, in whatever internal order the hash
set yields it) produce byte-identical output. -/
theorem create_release_deterministic (sl nc : List String) (issues : List Issue)
    (pre post : String) (ids₁ ids₂ : List Nat)
    (h : ∀ n, n ∈ ids₁ ↔ n ∈ ids₂) :
    (create_release sl nc ids₁ issues pre post).1 =
      (create_release sl nc ids₂ issues pre post).1 := by
  have he := (fileIssues_congr sl issues ids₁ ids₂ (initSections sl)
    (nc.foldl indexSetInsert []) h).1
  show pre ++ sectionsText (fileIssues sl issues ids₁ (initSections sl)
      (nc.foldl indexSetInsert [])).2.1 ++ post
      ++ contributorsText (fileIssues sl issues ids₁ (initSections sl)
          (nc.foldl indexSetInsert [])).2.2
    = pre ++ sectionsText (fileIssues sl issues ids₂ (initSections sl)
        (nc.foldl indexSetInsert [])).2.1 ++ post
        ++ contributorsText (fileIssues sl issues ids₂ (initSections sl)
            (nc.foldl indexSetInsert [])).2.2
  rw [he]

/-- C6 (witness).  The same id set in two different internal orders. -/
theorem create_release_deterministic_witness :
    (∀ n, n ∈ ([2, 1] : List Nat) ↔ n ∈ ([1, 2] : List Nat)) ∧
    (create_release ["area/bug"] ["zed"] [2, 1]
        [⟨1, "Fix", "u1", [⟨"area/bug"⟩], [⟨"amy"⟩], none⟩] "p" "q").1 =
      (create_release ["area/bug"] ["zed"] [1, 2]
        [⟨1, "Fix", "u1", [⟨"area/bug"⟩], [⟨"amy"⟩], none⟩] "p" "q").1 := by
  have h : ∀ n, n ∈ ([2, 1] : List Nat) ↔ n ∈ ([1, 2] : List Nat) := by
    intro n
    constructor <;> intro hx <;> simp only [List.mem_cons, List.not_mem_nil, or_false] at hx ⊢ <;>
      tauto
  exact ⟨h, create_release_deterministic ["area/bug"] ["zed"]
    [⟨1, "Fix", "u1", [⟨"area/bug"⟩], [⟨"amy"⟩], none⟩] "p" "q" [2, 1] [1, 2] h⟩

/-! ### C5 — each issue filed at most once, id-set cardinality accounting -/

/-- Pushing never changes the section keys. -/
theorem indexMapPush_keys (s : Sections) (k : String) (i : Issue) :
    (indexMapPush s k i).map Prod.fst = s.map Prod.fst := by
  induction s with
  | nil => rfl
  | cons p rest ih =>
    simp only [indexMapPush, List.map_cons] at ih ⊢
    cases h : (p.1 == k) <;> simp only [h, if_true, if_false, Bool.false_eq_true, ite_false,
      ite_true, List.map_cons, ih]

/-- Pushing at an absent key is a no-op. -/
theorem indexMapPush_not_mem (s : Sections) (k : String) (i : Issue)
    (h : k ∉ s.map Prod.fst) : indexMapPush s k i = s := by
  induction s with
  | nil => rfl
  | cons p rest ih =>
    simp only [List.map_cons, List.mem_cons, not_or] at h
    have hp : (p.1 == k) = false := by
      cases hb : (p.1 == k)
      · rfl
      · exact absurd (eq_of_beq hb).symm h.1
    simp only [indexMapPush] at ih ⊢
    simp only [List.map_cons, hp, Bool.false_eq_true, ite_false, ih h.2]

/-- Pushing at a present key (keys duplicate-free) adds exactly one entry. -/
theorem sectionsSize_push (s : Sections) (k : String) (i : Issue)
    (hn : (s.map Prod.fst).Nodup) (hk : k ∈ s.map Prod.fst) :
    sectionsSize (indexMapPush s k i) = sectionsSize s + 1 := by
  induction s with
  | nil => simp at hk
  | cons p rest ih =>
    simp only [List.map_cons, List.nodup_cons] at hn
    cases hb : (p.1 == k) with
    | true =>
      have hpk : p.1 = k := eq_of_beq hb
      have habs : k ∉ rest.map Prod.fst := hpk ▸ hn.1
      simp only [indexMapPush, List.map_cons, hb, ite_true]
      have : rest.map (fun p => if p.1 == k then (p.1, p.2 ++ [i]) else p) = rest :=
        indexMapPush_not_mem rest k i habs
      rw [this]
      simp only [sectionsSize, List.map_cons, List.sum_cons, List.length_append,
        List.length_cons, List.length_nil]
      omega
    | false =>
      have hk2 : k ∈ rest.map Prod.fst := by
        rcases List.mem_cons.mp hk with h | h
        · exact absurd (beq_iff_eq.mpr h.symm) (by rw [hb]; exact Bool.false_ne_true)
        · exact h
      simp only [indexMapPush, List.map_cons, hb, Bool.false_eq_true, ite_false]
      simp only [indexMapPush] at ih
      simp only [sectionsSize, List.map_cons, List.sum_cons] at ih ⊢
      rw [ih hn.2 hk2]
      omega

/-- Pushing at a present key (keys duplicate-free) adds one count for the
pushed issue's number and leaves other counts unchanged. -/
theorem sectionsCount_push (s : Sections) (k : String) (i : Issue) (n : Nat)
    (hn : (s.map Prod.fst).Nodup) (hk : k ∈ s.map Prod.fst) :
    sectionsCount (indexMapPush s k i) n
      = sectionsCount s n + (if i.number == n then 1 else 0) := by
  induction s with
  | nil => simp at hk
  | cons p rest ih =>
    simp only [List.map_cons, List.nodup_cons] at hn
    cases hb : (p.1 == k) with
    | true =>
      have hpk : p.1 = k := eq_of_beq hb
      have habs : k ∉ rest.map Prod.fst := hpk ▸ hn.1
      simp only [indexMapPush, List.map_cons, hb, ite_true]
      have : rest.map (fun p => if p.1 == k then (p.1, p.2 ++ [i]) else p) = rest :=
        indexMapPush_not_mem rest k i habs
      rw [this]
      simp only [sectionsCount, List.map_cons, List.sum_cons, List.countP_append,
        List.countP_cons, List.countP_nil]
      omega
    | false =>
      have hk2 : k ∈ rest.map Prod.fst := by
        rcases List.mem_cons.mp hk with h | h
        · exact absurd (beq_iff_eq.mpr h.symm) (by rw [hb]; exact Bool.false_ne_true)
        · exact h
      simp only [indexMapPush, List.map_cons, hb, Bool.false_eq_true, ite_false]
      simp only [indexMapPush] at ih
      simp only [sectionsCount, List.map_cons, List.sum_cons] at ih ⊢
      rw [ih hn.2 hk2]
      omega

/-- Keys of an `IndexMap` insert: unchanged when present, appended when
absent. -/
theorem indexMapInsert_keys (m : Sections) (k : String) (v : List Issue) :
    (indexMapInsert m k v).map Prod.fst =
      if m.any (fun p => p.1 == k) then m.map Prod.fst else m.map Prod.fst ++ [k] := by
  unfold indexMapInsert
  cases h : m.any (fun p => p.1 == k) with
  | true =>
    simp only [h, ite_true, List.map_map]
    refine List.map_congr_left ?_
    intro p _
    by_cases hpk : p.1 = k <;> simp [hpk]
  | false => simp [h]

/-- Values stay empty through an insert of an empty value. -/
theorem indexMapInsert_values_empty (m : Sections) (k : String)
    (h : ∀ p ∈ m, p.2 = ([] : List Issue)) :
    ∀ p ∈ indexMapInsert m k [], p.2 = ([] : List Issue) := by
  unfold indexMapInsert
  cases ha : m.any (fun p => p.1 == k) with
  | true =>
    simp only [ha, ite_true]
    intro p hp
    obtain ⟨q, hq, hfq⟩ := List.mem_map.mp hp
    cases hb : (q.1 == k) <;> simp only [hb, ite_true, Bool.false_eq_true, ite_false] at hfq <;>
      subst hfq
    · exact h q hq
    · rfl
  | false =>
    simp only [ha, Bool.false_eq_true, ite_false]
    intro p hp
    rcases List.mem_append.mp hp with hp | hp
    · exact h p hp
    · simp only [List.mem_singleton] at hp
      subst hp
      rfl

/-- Keys stay duplicate-free through an insert. -/
theorem indexMapInsert_keys_nodup (m : Sections) (k : String) (v : List Issue)
    (h : (m.map Prod.fst).Nodup) : ((indexMapInsert m k v).map Prod.fst).Nodup := by
  rw [indexMapInsert_keys]
  cases ha : m.any (fun p => p.1 == k) with
  | true => simpa using h
  | false =>
    have hnk : k ∉ m.map Prod.fst := by
      intro hm
      obtain ⟨p, hp, hfp⟩ := List.mem_map.mp hm
      have : m.any (fun p => p.1 == k) = true :=
        List.any_eq_true.mpr ⟨p, hp, beq_iff_eq.mpr hfp⟩
      rw [ha] at this
      exact Bool.false_ne_true this
    simp only [Bool.false_eq_true, ite_false]
    rw [List.nodup_append]
    exact ⟨h, List.nodup_singleton k, fun a hm hx => hnk ((List.mem_singleton.mp hx) ▸ hm)⟩

/-- Keys are preserved (as members) through an insert, and the inserted key
is present afterwards. -/
theorem indexMapInsert_mem_keys (m : Sections) (k : String) (v : List Issue) :
    (∀ x ∈ m.map Prod.fst, x ∈ (indexMapInsert m k v).map Prod.fst) ∧
      k ∈ (indexMapInsert m k v).map Prod.fst := by
  rw [indexMapInsert_keys]
  cases ha : m.any (fun p => p.1 == k) with
  | true =>
    simp only [ite_true]
    obtain ⟨p, hp, hbp⟩ := List.any_eq_true.mp ha
    exact ⟨fun x hx => hx, List.mem_map.mpr ⟨p, hp, eq_of_beq hbp⟩⟩
  | false =>
    simp only [Bool.false_eq_true, ite_false]
    exact ⟨fun x hx => List.mem_append.mpr (Or.inl hx),
      List.mem_append.mpr (Or.inr (List.mem_singleton.mpr rfl))⟩

/-- Properties of the label fold that builds the initial section map. -/
theorem foldl_insert_props (labels : List String) :
    ∀ (m : Sections), (m.map Prod.fst).Nodup → (∀ p ∈ m, p.2 = ([] : List Issue)) →
    (((labels.foldl (fun m label => indexMapInsert m (get_section_key label) []) m).map
        Prod.fst).Nodup ∧
     (∀ p ∈ labels.foldl (fun m label => indexMapInsert m (get_section_key label) []) m,
        p.2 = ([] : List Issue)) ∧
     (∀ x ∈ m.map Prod.fst,
        x ∈ (labels.foldl (fun m label => indexMapInsert m (get_section_key label) []) m).map
          Prod.fst) ∧
     (∀ l ∈ labels,
        get_section_key l ∈
          (labels.foldl (fun m label => indexMapInsert m (get_section_key label) []) m).map
            Prod.fst)) := by
  induction labels with
  | nil =>
    intro m hn hv
    exact ⟨hn, hv, fun x hx => hx, by simp⟩
  | cons l0 rest ih =>
    intro m hn hv
    simp only [List.foldl_cons]
    have hstep := ih (indexMapInsert m (get_section_key l0) [])
      (indexMapInsert_keys_nodup m (get_section_key l0) [] hn)
      (indexMapInsert_values_empty m (get_section_key l0) hv)
    refine ⟨hstep.1, hstep.2.1, ?_, ?_⟩
    · intro x hx
      exact hstep.2.2.1 x ((indexMapInsert_mem_keys m (get_section_key l0) []).1 x hx)
    · intro l hl
      rcases List.mem_cons.mp hl with hl | hl
      · subst hl
        exact hstep.2.2.1 _ (indexMapInsert_mem_keys m (get_section_key l) []).2
      · exact hstep.2.2.2 l hl

/-- The initial section map has duplicate-free keys, contains `misc` and
every label key, and all its sections are empty. -/
theorem initSections_props (sl : List String) :
    ((initSections sl).map Prod.fst).Nodup ∧
    "misc" ∈ (initSections sl).map Prod.fst ∧
    (∀ l ∈ sl, get_section_key l ∈ (initSections sl).map Prod.fst) ∧
    (∀ p ∈ initSections sl, p.2 = ([] : List Issue)) := by
  have hbase := foldl_insert_props sl [] (by simp) (by simp)
  unfold initSections
  refine ⟨indexMapInsert_keys_nodup _ "misc" [] hbase.1,
    (indexMapInsert_mem_keys _ "misc" []).2, ?_, indexMapInsert_values_empty _ "misc" hbase.2.1⟩
  intro l hl
  exact (indexMapInsert_mem_keys _ "misc" []).1 _ (hbase.2.2.2 l hl)

/-- The chosen section key of an issue is a key of any map holding `misc`
and every label key. -/
theorem sectionKeyFor_mem_keys (sl : List String) (issue : Issue) (s : Sections)
    (hm : "misc" ∈ s.map Prod.fst)
    (hl : ∀ l ∈ sl, get_section_key l ∈ s.map Prod.fst) :
    sectionKeyFor sl issue ∈ s.map Prod.fst := by
  unfold sectionKeyFor
  cases hf : sl.find? (fun label => issue.labels.any (fun it => it.name == label)) with
  | none => exact hm
  | some l => exact hl l (List.mem_of_find?_eq_some hf)

/-- An all-empty section map has size zero and zero counts. -/
theorem sectionsSize_of_values_empty (s : Sections) (h : ∀ p ∈ s, p.2 = ([] : List Issue)) :
    sectionsSize s = 0 ∧ ∀ n, sectionsCount s n = 0 := by
  induction s with
  | nil => simp [sectionsSize, sectionsCount]
  | cons p rest ih =>
    have hp : p.2 = [] := h p (by simp)
    have hrest := ih (fun q hq => h q (by simp [hq]))
    refine ⟨?_, fun n => ?_⟩
    · simp only [sectionsSize, List.map_cons, List.sum_cons, hp, List.length_nil]
      simpa [sectionsSize] using hrest.1
    · simp only [sectionsCount, List.map_cons, List.sum_cons, hp, List.countP_nil]
      simpa [sectionsCount] using hrest.2 n

/-- Removing a present element from a duplicate-free list shortens it by
exactly one. -/
theorem nodup_filter_ne_length (ids : List Nat) (n : Nat) (h : ids.Nodup) (hm : n ∈ ids) :
    (ids.filter (fun m => m ≠ n)).length + 1 = ids.length := by
  induction ids with
  | nil => simp at hm
  | cons a t ih =>
    rw [List.nodup_cons] at h
    by_cases han : a = n
    · subst han
      have hself : t.filter (fun m => decide (m ≠ a)) = t := by
        refine List.filter_eq_self.mpr ?_
        intro x hx
        exact decide_eq_true (fun hxa => h.1 (hxa ▸ hx))
      have hhead : (decide (a ≠ a)) = false := by simp
      rw [List.filter_cons, hhead, if_neg Bool.false_ne_true, hself, List.length_cons]
    · have hnt : n ∈ t := by
        rcases List.mem_cons.mp hm with hV | hV
        · exact absurd hV.symm han
        · exact hV
      have hhead : (decide (a ≠ n)) = true := decide_eq_true han
      rw [List.filter_cons, hhead, if_pos rfl, List.length_cons, List.length_cons]
      have := ih h.2 hnt
      omega

/-- Invariant of the filing loop: counts stay at most one, and the id-set
length plus the number of filed entries is conserved. -/
theorem fileIssues_invariant (sl : List String) :
    ∀ (issues : List Issue) (ids : List Nat) (s : Sections) (c : List String),
    ids.Nodup →
    (s.map Prod.fst).Nodup →
    "misc" ∈ s.map Prod.fst →
    (∀ l ∈ sl, get_section_key l ∈ s.map Prod.fst) →
    (∀ n, n ∈ ids → sectionsCount s n = 0) →
    (∀ n, sectionsCount s n ≤ 1) →
    (∀ n, sectionsCount (fileIssues sl issues ids s c).2.1 n ≤ 1) ∧
    (fileIssues sl issues ids s c).1.length + sectionsSize (fileIssues sl issues ids s c).2.1
      = ids.length + sectionsSize s
  | [], ids, s, c, _, _, _, _, _, hle => ⟨hle, rfl⟩
  | issue :: rest, ids, s, c, hids, hkn, hkm, hkl, hz, hle => by
    simp only [fileIssues]
    cases hc : ids.contains issue.number with
    | false =>
      rw [if_neg Bool.false_ne_true]
      exact fileIssues_invariant sl rest ids s c hids hkn hkm hkl hz hle
    | true =>
      rw [if_pos rfl]
      have hmem : issue.number ∈ ids := by
        have := contains_eq_decide_mem ids issue.number
        rw [hc] at this
        exact of_decide_eq_true this.symm
      have hkey := sectionKeyFor_mem_keys sl issue s hkm hkl
      have hpushkeys := indexMapPush_keys s (sectionKeyFor sl issue) issue
      have hsz := sectionsSize_push s (sectionKeyFor sl issue) issue hkn hkey
      have hcnt := fun n => sectionsCount_push s (sectionKeyFor sl issue) issue n hkn hkey
      have hids2 : (ids.filter (fun n => n ≠ issue.number)).Nodup := List.Nodup.filter _ hids
      have hlen := nodup_filter_ne_length ids issue.number hids hmem
      have hz2 : ∀ n, n ∈ ids.filter (fun n => n ≠ issue.number) →
          sectionsCount (indexMapPush s (sectionKeyFor sl issue) issue) n = 0 := by
        intro n hn
        rw [List.mem_filter] at hn
        have hne : n ≠ issue.number := of_decide_eq_true hn.2
        rw [hcnt n, hz n hn.1]
        have : (issue.number == n) = false := by
          cases hb : (issue.number == n)
          · rfl
          · exact absurd (eq_of_beq hb).symm hne
        rw [this]
        rfl
      have hle2 : ∀ n, sectionsCount (indexMapPush s (sectionKeyFor sl issue) issue) n ≤ 1 := by
        intro n
        rw [hcnt n]
        by_cases hne : issue.number = n
        · rw [hz n (hne ▸ hmem)]
          simp [hne]
        · have : (issue.number == n) = false := by
            cases hb : (issue.number == n)
            · rfl
            · exact absurd (eq_of_beq hb) hne
          rw [this]
          simpa using hle n
      have hrec := fileIssues_invariant sl rest (ids.filter (fun n => n ≠ issue.number))
        (indexMapPush s (sectionKeyFor sl issue) issue)
        (issue.assignees.foldl (fun c a => indexSetInsert c a.login) c)
        hids2 (hpushkeys ▸ hkn) (hpushkeys ▸ hkm)
        (fun l hl => hpushkeys ▸ hkl l hl) hz2 hle2
      refine ⟨hrec.1, ?_⟩
      rw [hrec.2, hsz]
      omega

/-- C5.  Release-note composition files every issue id into at most one
section (first matching section label, else `misc`), and the id set shrinks
by exactly the number of issues actually filed: final id-set size plus the
number of filed section entries equals the initial id-set size. -/
theorem create_release_files_each_issue_once (sl nc : List String) (ids : List Nat)
    (issues : List Issue) (pre post : String) (h : ids.Nodup) :
    (∀ n, sectionsCount
        (fileIssues sl issues ids (initSections sl) (nc.foldl indexSetInsert [])).2.1 n ≤ 1) ∧
    (fileIssues sl issues ids (initSections sl) (nc.foldl indexSetInsert [])).1.length
      + sectionsSize
          (fileIssues sl issues ids (initSections sl) (nc.foldl indexSetInsert [])).2.1
      = ids.length ∧
    (create_release sl nc ids issues pre post).2
      = (fileIssues sl issues ids (initSections sl) (nc.foldl indexSetInsert [])).1 := by
  obtain ⟨hkn, hkm, hkl, hve⟩ := initSections_props sl
  obtain ⟨hsz, hcnt⟩ := sectionsSize_of_values_empty (initSections sl) hve
  have hinv := fileIssues_invariant sl issues ids (initSections sl)
    (nc.foldl indexSetInsert []) h hkn hkm hkl (fun n _ => hcnt n)
    (fun n => by rw [hcnt n]; omega)
  refine ⟨hinv.1, ?_, rfl⟩
  rw [hinv.2, hsz]
  omega

/-- C5 (witness). -/
theorem create_release_files_each_issue_once_witness :
    ([7, 8] : List Nat).Nodup ∧
    ((fileIssues ["area/bug"] [⟨7, "A", "u", [⟨"area/bug"⟩], [], none⟩,
        ⟨7, "A", "u", [⟨"area/bug"⟩], [], none⟩, ⟨9, "B", "v", [], [], none⟩]
        [7, 8] (initSections ["area/bug"]) (List.foldl indexSetInsert [] [])).1.length
      + sectionsSize (fileIssues ["area/bug"] [⟨7, "A", "u", [⟨"area/bug"⟩], [], none⟩,
          ⟨7, "A", "u", [⟨"area/bug"⟩], [], none⟩, ⟨9, "B", "v", [], [], none⟩]
          [7, 8] (initSections ["area/bug"]) (List.foldl indexSetInsert [] [])).2.1
      = ([7, 8] : List Nat).length) :=
  ⟨by decide,
   (create_release_files_each_issue_once ["area/bug"] [] [7, 8]
     [⟨7, "A", "u", [⟨"area/bug"⟩], [], none⟩, ⟨7, "A", "u", [⟨"area/bug"⟩], [], none⟩,
      ⟨9, "B", "v", [], [], none⟩] "" "" (by decide)).2.1⟩

/-! ### C3 — changelog window bounds -/

/-- Helper: `takeWhile` passes an all-satisfying prefix through. -/
theorem takeWhile_append_all {α : Type} (p : α → Bool) :
    ∀ (l₁ l₂ : List α), l₁.all p = true →
      (l₁ ++ l₂).takeWhile p = l₁ ++ l₂.takeWhile p
  | [], l₂, _ => rfl
  | a :: l₁, l₂, h => by
    rw [List.all_cons, Bool.and_eq_true] at h
    simp only [List.cons_append, List.takeWhile_cons, h.1, ite_true, List.cons.injEq]
    exact ⟨trivial, takeWhile_append_all p l₁ l₂ h.2⟩

/-- Helper: `takeWhile` that stops inside the first part ignores the
second. -/
theorem takeWhile_append_stop {α : Type} (p : α → Bool) :
    ∀ (l₁ l₂ : List α), l₁.any (fun x => !p x) = true →
      (l₁ ++ l₂).takeWhile p = l₁.takeWhile p
  | [], l₂, h => by simp at h
  | a :: l₁, l₂, h => by
    rw [List.any_cons, Bool.or_eq_true] at h
    cases hp : p a with
    | false => simp [List.takeWhile_cons, hp]
    | true =>
      have h2 : l₁.any (fun x => !p x) = true := by
        rcases h with h | h
        · rw [hp] at h
          simp at h
        · exact h
      simp only [List.cons_append, List.takeWhile_cons, hp, ite_true, List.cons.injEq]
      exact ⟨trivial, takeWhile_append_stop p l₁ l₂ h2⟩

/-- Helper: `takeWhile` of an all-satisfying list is the list itself. -/
theorem takeWhile_all_eq_self {α : Type} (p : α → Bool) :
    ∀ (l : List α), l.all p = true → l.takeWhile p = l
  | [], _ => rfl
  | a :: l, h => by
    rw [List.all_cons, Bool.and_eq_true] at h
    simp only [List.takeWhile_cons, h.1, ite_true, List.cons.injEq]
    exact ⟨trivial, takeWhile_all_eq_self p l h.2⟩

/-- Helper: `dropWhile` over an append with an all-satisfying first part. -/
theorem dropWhile_append_all {α : Type} (p : α → Bool) :
    ∀ (l₁ l₂ : List α), l₁.all p = true →
      (l₁ ++ l₂).dropWhile p = l₂.dropWhile p
  | [], l₂, _ => rfl
  | a :: l₁, l₂, h => by
    rw [List.all_cons, Bool.and_eq_true] at h
    simp only [List.cons_append, List.dropWhile_cons, h.1, ite_true]
    exact dropWhile_append_all p l₁ l₂ h.2

/-- Helper: `dropWhile` over an append that stops inside the first part. -/
theorem dropWhile_append_stop {α : Type} (p : α → Bool) :
    ∀ (l₁ l₂ : List α), l₁.all p = false →
      (l₁ ++ l₂).dropWhile p = l₁.dropWhile p ++ l₂
  | [], l₂, h => by simp at h
  | a :: l₁, l₂, h => by
    cases hp : p a with
    | false => simp [List.dropWhile_cons, hp]
    | true =>
      have h2 : l₁.all p = false := by
        rw [List.all_cons, hp, Bool.true_and] at h
        exact h
      simp only [List.cons_append, List.dropWhile_cons, hp, ite_true]
      exact dropWhile_append_stop p l₁ l₂ h2

/-- Helper: `dropWhile` of a not-all-satisfying list is non-empty. -/
theorem dropWhile_ne_nil_of_not_all {α : Type} (p : α → Bool) :
    ∀ (l : List α), l.all p = false → l.dropWhile p ≠ []
  | [], h => by simp at h
  | a :: l, h => by
    cases hp : p a with
    | false => simp [List.dropWhile_cons, hp]
    | true =>
      have h2 : l.all p = false := by
        rw [List.all_cons, hp, Bool.true_and] at h
        exact h
      simp only [List.dropWhile_cons, hp, ite_true]
      exact dropWhile_ne_nil_of_not_all p l h2

/-- Helper: members of a `takeWhile` satisfy the predicate. -/
theorem mem_takeWhile_pred {α : Type} (p : α → Bool) :
    ∀ (l : List α) (x : α), x ∈ l.takeWhile p → p x = true
  | a :: l, x, hx => by
    cases hp : p a with
    | false => rw [List.takeWhile_cons, hp] at hx; simp at hx
    | true =>
      rw [List.takeWhile_cons, hp] at hx
      simp only [ite_true, List.mem_cons] at hx
      rcases hx with hx | hx
      · exact hx ▸ hp
      · exact mem_takeWhile_pred p l x hx

/-- Once the tag has been observed, the page loop records commits until the
first previous-tag prefix match, which stops everything. -/
theorem scanPage_true (th ph : String) (fp : Bool) :
    ∀ pg : List Commit,
      scanPage th ph fp pg true =
        (pg.takeWhile (fun c => !(shaMatches ph c)), true, pg.any (fun c => shaMatches ph c))
  | [] => rfl
  | c :: rest => by
    simp only [scanPage, Bool.not_true, Bool.false_eq_true, ite_false, Bool.or_true,
      if_pos rfl, Bool.true_and, List.takeWhile_cons, List.any_cons]
    cases hm : shaMatches ph c with
    | true => simp [hm]
    | false =>
      simp only [Bool.false_eq_true, ite_false, Bool.not_false, ite_true, Bool.false_or]
      rw [scanPage_true th ph fp rest]

/-- Before the tag is observed, non-matching commits are skipped without
any recording. -/
theorem scanPage_false_all (th ph : String) (fp : Bool) :
    ∀ pg : List Commit, (∀ c ∈ pg, shaMatches th c = false) →
      scanPage th ph fp pg false = ([], false, false)
  | [], _ => rfl
  | c :: rest, h => by
    have hc : shaMatches th c = false := h c (by simp)
    simp only [scanPage, Bool.not_false, ite_true, hc, Bool.false_eq_true, ite_false]
    exact scanPage_false_all th ph fp rest (fun x hx => h x (by simp [hx]))

/-- Page loop from the unobserved state: the first tag prefix match starts
the recording (including that commit), and a previous-tag prefix match stops
the scan before being recorded. -/
theorem scanPage_false_split (th ph : String) (fp : Bool) :
    ∀ (pg : List Commit) (tc : Commit) (tl : List Commit),
      pg.dropWhile (fun c => !(shaMatches th c)) = tc :: tl →
      shaMatches ph tc = false →
      scanPage th ph fp pg false =
        (tc :: tl.takeWhile (fun c => !(shaMatches ph c)), true,
          tl.any (fun c => shaMatches ph c))
  | [], tc, tl, hsplit, _ => by simp at hsplit
  | c :: rest, tc, tl, hsplit, hnp => by
    cases hm : shaMatches th c with
    | false =>
      rw [List.dropWhile_cons] at hsplit
      rw [hm] at hsplit
      simp only [Bool.not_false, ite_true] at hsplit
      simp only [scanPage, Bool.not_false, ite_true, hm, Bool.false_eq_true, ite_false]
      exact scanPage_false_split th ph fp rest tc tl hsplit hnp
    | true =>
      rw [List.dropWhile_cons] at hsplit
      rw [hm] at hsplit
      simp only [Bool.not_true, Bool.false_eq_true, ite_false, List.cons.injEq] at hsplit
      obtain ⟨hct, hrt⟩ := hsplit
      subst hct
      subst hrt
      simp only [scanPage, Bool.not_false, ite_true, hm, Bool.or_true, if_pos rfl,
        Bool.true_and, hnp, Bool.false_eq_true, ite_false]
      rw [scanPage_true th ph fp rest]

/-- Pagination loop after the tag has been observed: it records the
remaining stream up to the previous-tag boundary. -/
theorem scanPages_true (th ph : String) (fp : Bool) :
    ∀ pages : List (List Commit),
      scanPages th ph fp pages true =
        (pagesStream pages).takeWhile (fun c => !(shaMatches ph c))
  | [] => rfl
  | pg :: rest => by
    cases he : pg.isEmpty with
    | true =>
      simp only [scanPages, he, ite_true, pagesStream, List.takeWhile_cons, Bool.not_true,
        Bool.false_eq_true, ite_false]
      rfl
    | false =>
      have hstream : pagesStream (pg :: rest) = pg ++ pagesStream rest := by
        simp [pagesStream, List.takeWhile_cons, he]
      simp only [scanPages, he, Bool.false_eq_true, ite_false]
      rw [scanPage_true th ph fp pg, hstream]
      cases hany : pg.any (fun c => shaMatches ph c) with
      | true =>
        simp only [ite_true]
        rw [takeWhile_append_stop _ pg (pagesStream rest) (by simpa using hany)]
      | false =>
        have hall : pg.all (fun c => !(shaMatches ph c)) = true := by
          rw [List.all_eq_true]
          intro x hx
          cases hb : shaMatches ph x with
          | false => simp
          | true =>
            exfalso
            have hcontra : pg.any (fun c => shaMatches ph c) = true :=
              List.any_eq_true.mpr ⟨x, hx, hb⟩
            rw [hany] at hcontra
            exact Bool.false_ne_true hcontra
        simp only [Bool.false_eq_true, ite_false]
        rw [takeWhile_all_eq_self _ pg hall, takeWhile_append_all _ pg (pagesStream rest) hall,
          scanPages_true th ph fp rest]

/-- Full scan from the unobserved state: it records exactly the stream from
the first tag prefix match up to (excluding) the first subsequent
previous-tag prefix match. -/
theorem scanPages_false (th ph : String) (fp : Bool) :
    ∀ (pages : List (List Commit)) (tc : Commit) (post : List Commit),
      (pagesStream pages).dropWhile (fun c => !(shaMatches th c)) = tc :: post →
      shaMatches ph tc = false →
      scanPages th ph fp pages false =
        tc :: post.takeWhile (fun c => !(shaMatches ph c))
  | [], tc, post, hsplit, _ => by simp [pagesStream] at hsplit
  | pg :: rest, tc, post, hsplit, hnp => by
    cases he : pg.isEmpty with
    | true =>
      rw [pagesStream] at hsplit
      rw [List.takeWhile_cons] at hsplit
      rw [he] at hsplit
      simp at hsplit
    | false =>
      have hstream : pagesStream (pg :: rest) = pg ++ pagesStream rest := by
        simp [pagesStream, List.takeWhile_cons, he]
      rw [hstream] at hsplit
      simp only [scanPages, he, Bool.false_eq_true, ite_false]
      cases hall : pg.all (fun c => !(shaMatches th c)) with
      | true =>
        rw [dropWhile_append_all _ pg (pagesStream rest) hall] at hsplit
        have hskip : ∀ c ∈ pg, shaMatches th c = false := by
          intro x hx
          have := List.all_eq_true.mp hall x hx
          cases hb : shaMatches th x with
          | false => rfl
          | true => rw [hb] at this; simp at this
        rw [scanPage_false_all th ph fp pg hskip]
        simp only [List.nil_append]
        exact scanPages_false th ph fp rest tc post hsplit hnp
      | false =>
        rw [dropWhile_append_stop _ pg (pagesStream rest) hall] at hsplit
        cases hdw : pg.dropWhile (fun c => !(shaMatches th c)) with
        | nil => exact absurd hdw (dropWhile_ne_nil_of_not_all _ pg hall)
        | cons hd tl =>
          rw [hdw] at hsplit
          simp only [List.cons_append, List.cons.injEq] at hsplit
          obtain ⟨hhd, hpost⟩ := hsplit
          subst hhd
          rw [scanPage_false_split th ph fp pg hd tl hdw hnp]
          cases hany : tl.any (fun c => shaMatches ph c) with
          | true =>
            simp only [ite_true]
            rw [← hpost, takeWhile_append_stop _ tl (pagesStream rest) (by simpa using hany)]
          | false =>
            have hall2 : tl.all (fun c => !(shaMatches ph c)) = true := by
              rw [List.all_eq_true]
              intro x hx
              cases hb : shaMatches ph x with
              | false => simp
              | true =>
                exfalso
                have hcontra : tl.any (fun c => shaMatches ph c) = true :=
                  List.any_eq_true.mpr ⟨x, hx, hb⟩
                rw [hany] at hcontra
                exact Bool.false_ne_true hcontra
            simp only [Bool.false_eq_true, ite_false]
            rw [scanPages_true th ph fp rest, ← hpost,
              takeWhile_append_all _ tl (pagesStream rest) hall2,
              takeWhile_all_eq_self _ tl hall2]
            simp

/-- C3.  Whenever the tag commit is observed in the scanned stream (it is
the first commit whose hash prefix-matches the tag hash) and is not itself
the previous-tag boundary, the collected window is exactly the stream from
the tag commit (included) up to the first subsequent previous-tag
prefix-match (excluded, and nothing after it is recorded): in particular
the window contains the tag commit and never a boundary commit. -/
theorem scan_commits_window (th ph : String) (fp : Bool) (pages : List (List Commit))
    (tc : Commit) (post : List Commit)
    (hsplit : (pagesStream pages).dropWhile (fun c => !(shaMatches th c)) = tc :: post)
    (hnp : shaMatches ph tc = false) :
    scan_commits th ph fp pages = tc :: post.takeWhile (fun c => !(shaMatches ph c)) ∧
    tc ∈ scan_commits th ph fp pages ∧
    ∀ c ∈ scan_commits th ph fp pages, shaMatches ph c = false := by
  have h1 : scan_commits th ph fp pages = tc :: post.takeWhile (fun c => !(shaMatches ph c)) :=
    scanPages_false th ph fp pages tc post hsplit hnp
  refine ⟨h1, by rw [h1]; exact List.mem_cons_self _ _, ?_⟩
  intro c hc
  rw [h1] at hc
  rcases List.mem_cons.mp hc with hc | hc
  · exact hc ▸ hnp
  · have := mem_takeWhile_pred _ post c hc
    cases hb : shaMatches ph c with
    | false => rfl
    | true => rw [hb] at this; simp at this

/-- C3 (witness).  A two-page history: a pre-window commit, then the tag
commit, one in-window commit, the boundary commit, and a post-boundary
commit; the scan records exactly the tag commit and the in-window commit. -/
theorem scan_commits_window_witness :
    scan_commits "t" "p" true
        [[⟨"x1", ⟨"m"⟩, "u", none⟩],
         [⟨"t1234567", ⟨"tag commit"⟩, "u", none⟩, ⟨"y1234567", ⟨"mid"⟩, "u", none⟩,
          ⟨"p1234567", ⟨"prev"⟩, "u", none⟩, ⟨"z1", ⟨"after"⟩, "u", none⟩]]
      = (⟨"t1234567", ⟨"tag commit"⟩, "u", none⟩ : Commit) ::
          ([⟨"y1234567", ⟨"mid"⟩, "u", none⟩, ⟨"p1234567", ⟨"prev"⟩, "u", none⟩,
            ⟨"z1", ⟨"after"⟩, "u", none⟩] : List Commit).takeWhile
            (fun c => !(shaMatches "p" c)) :=
  (scan_commits_window "t" "p" true
    [[⟨"x1", ⟨"m"⟩, "u", none⟩],
     [⟨"t1234567", ⟨"tag commit"⟩, "u", none⟩, ⟨"y1234567", ⟨"mid"⟩, "u", none⟩,
      ⟨"p1234567", ⟨"prev"⟩, "u", none⟩, ⟨"z1", ⟨"after"⟩, "u", none⟩]]
    ⟨"t1234567", ⟨"tag commit"⟩, "u", none⟩
    [⟨"y1234567", ⟨"mid"⟩, "u", none⟩, ⟨"p1234567", ⟨"prev"⟩, "u", none⟩,
     ⟨"z1", ⟨"after"⟩, "u", none⟩] (by decide) (by decide)).1

end LonghornRelease
